import Mathlib

/-!
Verification of the coffee-wheel application (`src/App.tsx`).

The core algorithm is embedded shallowly over `ℚ` (JavaScript's number
arithmetic is modelled by exact rational arithmetic; all constants of the
source — 0.1, 0.2, 360, 5 — are exactly representable).  JavaScript's `%`
operator is modelled by `jsMod`, which truncates the quotient toward zero
exactly as `%` does.
-/

/-- A roster entry: `interface Person { id: string; name: string; wins: number }`.
`wins` is a non-negative integer: it starts at 0, is incremented by spins, and
the decrement button clamps it at 0 with `Math.max(0, p.wins - 1)`. -/
structure Person where
  id : String
  name : String
  wins : Nat
deriving DecidableEq, Repr

/-- A `Person` together with its derived weight (the object spread
`{ ...person, weight }` in `calculateWeightedSegments`). -/
structure WeightedPerson where
  person : Person
  weight : ℚ
deriving DecidableEq, Repr

/-- A wheel segment (the object spread `{ ...person, startAngle, endAngle,
segmentAngle }` built in `getSegmentAngles`). -/
structure Segment where
  person : Person
  weight : ℚ
  startAngle : ℚ
  endAngle : ℚ
  segmentAngle : ℚ
deriving DecidableEq, Repr

/-- The weight formula of `calculateWeightedSegments`:
`Math.max(0.1, baseWeight - person.wins * penaltyPerWin)` with
`baseWeight = 1` and `penaltyPerWin = 0.2`. -/
def weightOf (wins : Nat) : ℚ := max 0.1 (1 - (wins : ℚ) * 0.2)

/-- `calculateWeightedSegments`: maps each person to itself plus its weight. -/
def calculateWeightedSegments (names : List Person) : List WeightedPerson :=
  names.map (fun p => ⟨p, weightOf p.wins⟩)

/-- The running-angle loop body of `getSegmentAngles`: walk the weighted
people in order, each consuming `weight / totalWeight * 360` degrees starting
at the accumulated `currentAngle`. -/
def segmentsFrom (totalWeight : ℚ) (currentAngle : ℚ) :
    List WeightedPerson → List Segment
  | [] => []
  | wp :: rest =>
    let segmentAngle := wp.weight / totalWeight * 360
    ⟨wp.person, wp.weight, currentAngle, currentAngle + segmentAngle, segmentAngle⟩ ::
      segmentsFrom totalWeight (currentAngle + segmentAngle) rest

/-- `weightedPeople.reduce((sum, person) => sum + person.weight, 0)`. -/
def totalWeightOf (names : List Person) : ℚ :=
  (calculateWeightedSegments names).foldl (fun sum person => sum + person.weight) 0

/-- `getSegmentAngles`: weighted people, their total weight, then the
running-angle walk starting from `currentAngle = 0`. -/
def getSegmentAngles (names : List Person) : List Segment :=
  segmentsFrom (totalWeightOf names) 0 (calculateWeightedSegments names)

/-- Truncation toward zero, as JavaScript division underlying `%` does. -/
def jsTrunc (x : ℚ) : ℤ := if 0 ≤ x then ⌊x⌋ else -⌊-x⌋

/-- JavaScript's `%` operator on numbers: `a - b * trunc(a / b)`. -/
def jsMod (a b : ℚ) : ℚ := a - b * jsTrunc (a / b)

/-- The matching loop of `spinWheel`: scan the segments in order and return
the first one whose half-open interval `[startAngle, endAngle)` contains the
angle (the loop body's
`segmentTopAngle >= segment.startAngle && segmentTopAngle < segment.endAngle`
test followed by `break`). -/
def findSegment (angle : ℚ) : List Segment → Option Segment
  | [] => none
  | seg :: rest =>
    if seg.startAngle ≤ angle ∧ angle < seg.endAngle then some seg
    else findSegment angle rest

/-- The full selection step of `spinWheel`: `let selectedWinner = segments[0]`
followed by the first-match scan; on an empty segment list there is no
winner (`segments[0]` would be `undefined` in the source). -/
def selectWinner (segments : List Segment) (angle : ℚ) : Option Segment :=
  match segments with
  | [] => none
  | seg0 :: _ => some ((findSegment angle segments).getD seg0)

/-- The pure spin computation of `spinWheel`, with the random sample
`randomAngle = Math.random() * 360` injected as a parameter:
`totalRotation = 360 * 5 + randomAngle`, the new cumulative rotation,
`finalRotation = newRotation % 360`, the pointer angle
`(360 - finalRotation) % 360`, and the selection scan. -/
def resolveSpin (prevRotation : ℚ) (segments : List Segment) (randomAngle : ℚ) :
    ℚ × Option Segment :=
  let baseRotation : ℚ := 360 * 5
  let totalRotation := baseRotation + randomAngle
  let newRotation := prevRotation + totalRotation
  let finalRotation := jsMod newRotation 360
  let segmentTopAngle := jsMod (360 - finalRotation) 360
  (newRotation, selectWinner segments segmentTopAngle)

/-- The pointer angle in the wheel frame as the claims describe it:
`(360 - ((p + 5*360 + s) mod 360)) mod 360`. -/
def pointerAngle (p s : ℚ) : ℚ := jsMod (360 - jsMod (p + 5 * 360 + s) 360) 360

/-- The component state of the `App` component that the spin touches. -/
structure AppState where
  names : List Person
  isSpinning : Bool
  winner : Option String
  rotation : ℚ
deriving DecidableEq, Repr

/-- The commit step inside `spinWheel`'s timeout callback:
`prevNames.map(p => p.id === selectedWinner.id ? { ...p, wins: p.wins + 1 } : p)`. -/
def commitWin (names : List Person) (w : Person) : List Person :=
  names.map (fun p => if p.id = w.id then { p with wins := p.wins + 1 } else p)

/-- `spinWheel` from guard to committed result: refuse on an empty roster,
otherwise advance the rotation, resolve the winner against the freshly
computed segments, and (after the animation timeout) record the winner,
increment its win count and clear `isSpinning`. -/
def spinWheel (st : AppState) (randomAngle : ℚ) : AppState :=
  if st.names.length = 0 then st
  else
    let segments := getSegmentAngles st.names
    let r := resolveSpin st.rotation segments randomAngle
    match r.2 with
    | none => st
    | some w =>
      { names := commitWin st.names w.person
        isSpinning := false
        winner := some w.person.name
        rotation := r.1 }

/-- A click on the spin button: the button carries
`disabled={names.length === 0 || isSpinning}`, so a click while a spin is in
flight (or with an empty roster) is a no-op; otherwise it invokes `spinWheel`. -/
def spinButtonClick (st : AppState) (randomAngle : ℚ) : AppState :=
  if st.names.length = 0 || st.isSpinning then st else spinWheel st randomAngle

/-- JavaScript's `String.prototype.toLowerCase` (ASCII-faithful): lower-case
every character. -/
def jsToLower (s : String) : String := ⟨s.data.map Char.toLower⟩

/-- JavaScript's `String.prototype.trim`: strip whitespace from both ends. -/
def jsTrim (s : String) : String :=
  ⟨((s.data.dropWhile Char.isWhitespace).reverse.dropWhile Char.isWhitespace).reverse⟩

/-- `addName`: if the trimmed input is non-empty (truthy) and no existing
person's lowercased name equals the lowercased (untrimmed!) input, append a
new person with the trimmed name and zero wins; otherwise leave the roster
unchanged.  The fresh id (`Date.now().toString()` in the source) is injected. -/
def addName (names : List Person) (newName : String) (newId : String) : List Person :=
  if jsTrim newName ≠ "" ∧
      ¬ names.any (fun person => jsToLower person.name = jsToLower newName) then
    names ++ [⟨newId, jsTrim newName, 0⟩]
  else
    names

/-- A concrete two-person roster used to instantiate the theorems. -/
def rosterAB : List Person := [⟨"1", "A", 0⟩, ⟨"2", "B", 0⟩]

/-- A concrete state used to instantiate the theorems. -/
def stateAB : AppState := ⟨rosterAB, false, none, 0⟩

/-! ## Helper lemmas -/

lemma foldl_add_weight (ws : List WeightedPerson) :
    ∀ c : ℚ, ws.foldl (fun sum person => sum + person.weight) c
      = c + (ws.map (fun wp => wp.weight)).sum := by
  induction ws with
  | nil => intro c; simp
  | cons w rest ih => intro c; simp [ih]; ring

lemma totalWeight_eq (names : List Person) :
    totalWeightOf names = ((calculateWeightedSegments names).map (fun wp => wp.weight)).sum := by
  simp [totalWeightOf, foldl_add_weight]

lemma weightOf_pos (w : Nat) : 0 < weightOf w :=
  lt_of_lt_of_le (by norm_num) (le_max_left _ _)

lemma totalWeight_pos (names : List Person) (h : names ≠ []) : 0 < totalWeightOf names := by
  rw [totalWeight_eq]
  apply List.sum_pos
  · intro a ha
    simp only [calculateWeightedSegments, List.map_map, List.mem_map] at ha
    obtain ⟨p, _, rfl⟩ := ha
    exact weightOf_pos p.wins
  · simp [calculateWeightedSegments, h]

lemma segmentsFrom_map_person (t : ℚ) :
    ∀ (ws : List WeightedPerson) (c : ℚ),
      (segmentsFrom t c ws).map (fun s => s.person) = ws.map (fun wp => wp.person) := by
  intro ws
  induction ws with
  | nil => intro c; rfl
  | cons w rest ih => intro c; simp [segmentsFrom, ih]

lemma segmentsFrom_getElem?_segmentAngle (t : ℚ) :
    ∀ (ws : List WeightedPerson) (c : ℚ) (i : ℕ),
      ((segmentsFrom t c ws)[i]?).map (fun s => s.segmentAngle)
        = (ws[i]?).map (fun wp => wp.weight / t * 360) := by
  intro ws
  induction ws with
  | nil => intro c i; simp [segmentsFrom]
  | cons w rest ih =>
    intro c i
    cases i with
    | zero => simp [segmentsFrom]
    | succ j => simpa [segmentsFrom] using ih (c + w.weight / t * 360) j

lemma segmentsFrom_head?_start (t c : ℚ) (ws : List WeightedPerson) (h : ws ≠ []) :
    ((segmentsFrom t c ws).head?).map (fun s => s.startAngle) = some c := by
  cases ws with
  | nil => exact absurd rfl h
  | cons w rest => rfl

lemma segmentsFrom_chain (t : ℚ) :
    ∀ (ws : List WeightedPerson) (c : ℚ),
      List.Chain' (fun u v => v.startAngle = u.endAngle) (segmentsFrom t c ws) := by
  intro ws
  induction ws with
  | nil => intro c; simp [segmentsFrom]
  | cons w rest ih =>
    intro c
    rw [segmentsFrom, List.chain'_cons']
    refine ⟨?_, ih _⟩
    intro b hb
    cases rest with
    | nil => simp [segmentsFrom] at hb
    | cons w2 rest2 =>
      simp only [segmentsFrom, List.head?_cons, Option.mem_def, Option.some.injEq] at hb
      subst hb
      rfl

lemma segmentsFrom_sum (t : ℚ) :
    ∀ (ws : List WeightedPerson) (c : ℚ),
      ((segmentsFrom t c ws).map (fun s => s.segmentAngle)).sum
        = (ws.map (fun wp => wp.weight)).sum / t * 360 := by
  intro ws
  induction ws with
  | nil => intro c; simp [segmentsFrom]
  | cons w rest ih =>
    intro c
    simp only [segmentsFrom, List.map_cons, List.sum_cons, ih, List.map_cons, List.sum_cons]
    ring

lemma segmentsFrom_getLast?_end (t : ℚ) :
    ∀ (ws : List WeightedPerson) (c : ℚ), ws ≠ [] →
      ((segmentsFrom t c ws).getLast?).map (fun s => s.endAngle)
        = some (c + (ws.map (fun wp => wp.weight)).sum / t * 360) := by
  intro ws
  induction ws with
  | nil => intro c h; exact absurd rfl h
  | cons w rest ih =>
    intro c _
    cases rest with
    | nil =>
      simp only [segmentsFrom, List.getLast?_singleton, Option.map_some', List.map_cons,
        List.map_nil, List.sum_cons, List.sum_nil]
      congr 1
      ring
    | cons w2 rest2 =>
      have hcons : segmentsFrom t c (w :: w2 :: rest2)
          = ⟨w.person, w.weight, c, c + w.weight / t * 360, w.weight / t * 360⟩ ::
              segmentsFrom t (c + w.weight / t * 360) (w2 :: rest2) := rfl
      have hcons2 : segmentsFrom t (c + w.weight / t * 360) (w2 :: rest2)
          = ⟨w2.person, w2.weight, c + w.weight / t * 360,
              c + w.weight / t * 360 + w2.weight / t * 360, w2.weight / t * 360⟩ ::
              segmentsFrom t (c + w.weight / t * 360 + w2.weight / t * 360) rest2 := rfl
      rw [hcons, hcons2, List.getLast?_cons_cons, ← hcons2]
      rw [ih (c + w.weight / t * 360) (by simp)]
      congr 1
      simp only [List.map_cons, List.sum_cons]
      ring

lemma findSegment_eq_none (angle : ℚ) (segs : List Segment)
    (h : ∀ seg ∈ segs, ¬ (seg.startAngle ≤ angle ∧ angle < seg.endAngle)) :
    findSegment angle segs = none := by
  induction segs with
  | nil => rfl
  | cons s rest ih =>
    rw [findSegment, if_neg (h s (by simp))]
    exact ih (fun u hu => h u (by simp [hu]))

lemma findSegment_decomp (angle : ℚ) :
    ∀ (segs : List Segment) (w : Segment), findSegment angle segs = some w →
      ∃ l₁ l₂, segs = l₁ ++ w :: l₂ ∧
        (∀ u ∈ l₁, ¬ (u.startAngle ≤ angle ∧ angle < u.endAngle)) ∧
        (w.startAngle ≤ angle ∧ angle < w.endAngle) := by
  intro segs
  induction segs with
  | nil => intro w h; simp [findSegment] at h
  | cons s rest ih =>
    intro w h
    rw [findSegment] at h
    by_cases hc : s.startAngle ≤ angle ∧ angle < s.endAngle
    · rw [if_pos hc] at h
      obtain rfl : s = w := by injection h
      exact ⟨[], rest, rfl, by simp, hc⟩
    · rw [if_neg hc] at h
      obtain ⟨l₁, l₂, heq, hno, hw⟩ := ih w h
      refine ⟨s :: l₁, l₂, by simp [heq], ?_, hw⟩
      intro u hu
      rcases List.mem_cons.mp hu with rfl | hu'
      · exact hc
      · exact hno u hu'

lemma findSegment_isSome_segmentsFrom (t : ℚ) (angle : ℚ) :
    ∀ (ws : List WeightedPerson) (c : ℚ), ws ≠ [] →
      c ≤ angle → angle < c + (ws.map (fun wp => wp.weight)).sum / t * 360 →
      (findSegment angle (segmentsFrom t c ws)).isSome = true := by
  intro ws
  induction ws with
  | nil => intro c h; exact absurd rfl h
  | cons w rest ih =>
    intro c _ hc hlt
    by_cases hend : angle < c + w.weight / t * 360
    · rw [show segmentsFrom t c (w :: rest)
            = ⟨w.person, w.weight, c, c + w.weight / t * 360, w.weight / t * 360⟩ ::
                segmentsFrom t (c + w.weight / t * 360) rest from rfl]
      rw [findSegment, if_pos ⟨hc, hend⟩]
      rfl
    · push_neg at hend
      cases rest with
      | nil =>
        exfalso
        simp only [List.map_cons, List.map_nil, List.sum_cons, List.sum_nil, add_zero] at hlt
        linarith
      | cons w2 rest2 =>
        rw [show segmentsFrom t c (w :: w2 :: rest2)
              = ⟨w.person, w.weight, c, c + w.weight / t * 360, w.weight / t * 360⟩ ::
                  segmentsFrom t (c + w.weight / t * 360) (w2 :: rest2) from rfl]
        rw [findSegment, if_neg (by intro hcon; exact absurd hcon.2 (not_lt.mpr hend))]
        apply ih (c + w.weight / t * 360) (by simp) hend
        have hsum : (List.map (fun wp => wp.weight) (w :: w2 :: rest2)).sum
            = w.weight + (List.map (fun wp => wp.weight) (w2 :: rest2)).sum := by
          simp
        have hdist : (w.weight + (List.map (fun wp => wp.weight) (w2 :: rest2)).sum) / t * 360
            = w.weight / t * 360 + (List.map (fun wp => wp.weight) (w2 :: rest2)).sum / t * 360 := by
          ring
        rw [hsum, hdist] at hlt
        linarith

lemma selectWinner_eq_of_findSegment (segs : List Segment) (angle : ℚ) (w : Segment)
    (h : findSegment angle segs = some w) : selectWinner segs angle = some w := by
  cases segs with
  | nil => simp [findSegment] at h
  | cons s0 rest => simp [selectWinner, h]

lemma jsMod_nonneg_lt (a b : ℚ) (ha : 0 ≤ a) (hb : 0 < b) :
    0 ≤ jsMod a b ∧ jsMod a b < b := by
  unfold jsMod jsTrunc
  rw [if_pos (div_nonneg ha hb.le)]
  have hfloor : ((⌊a / b⌋ : ℤ) : ℚ) ≤ a / b := Int.floor_le _
  have hfloor2 : a / b < (⌊a / b⌋ : ℚ) + 1 := Int.lt_floor_add_one _
  have hba : b * (a / b) = a := by field_simp
  constructor
  · have := mul_le_mul_of_nonneg_left hfloor hb.le
    rw [hba] at this
    linarith
  · have := mul_lt_mul_of_pos_left hfloor2 hb
    rw [hba] at this
    linarith

lemma getSegmentAngles_ne_nil (names : List Person) (h : names ≠ []) :
    getSegmentAngles names ≠ [] := by
  cases names with
  | nil => exact absurd rfl h
  | cons n rest => simp [getSegmentAngles, calculateWeightedSegments, segmentsFrom]

lemma resolveSpin_snd (p s : ℚ) (segs : List Segment) :
    (resolveSpin p segs s).2 = selectWinner segs (pointerAngle p s) := by
  show selectWinner segs (jsMod (360 - jsMod (p + (360 * 5 + s)) 360) 360)
      = selectWinner segs (jsMod (360 - jsMod (p + 5 * 360 + s) 360) 360)
  rw [show p + (360 * 5 + s) = p + 5 * 360 + s from by ring]

lemma pointerAngle_mem (p s : ℚ) (hp : 0 ≤ p) (hs0 : 0 ≤ s) :
    0 ≤ pointerAngle p s ∧ pointerAngle p s < 360 := by
  have h1 := jsMod_nonneg_lt (p + 5 * 360 + s) 360 (by linarith) (by norm_num)
  exact jsMod_nonneg_lt (360 - jsMod (p + 5 * 360 + s) 360) 360 (by linarith [h1.2]) (by norm_num)

/-- Concrete evaluation of the layout on `rosterAB`: two equal weights give
two half-circle segments. -/
lemma rosterAB_segments : getSegmentAngles rosterAB =
    [⟨⟨"1", "A", 0⟩, 1, 0, 180, 180⟩, ⟨⟨"2", "B", 0⟩, 1, 180, 360, 180⟩] := by
  norm_num [getSegmentAngles, segmentsFrom, calculateWeightedSegments, totalWeightOf,
    weightOf, rosterAB]

/-! ## Claim theorems -/

/-- C4: for every entrant the derived weight equals
`max(0.1, 1 - wins * 0.2)`, the weight is monotonically non-increasing in the
win count, and it never falls below 0.1. -/
theorem weight_formula_monotone_floored
    (names : List Person) (i : ℕ) (q : Person) (hq : names[i]? = some q)
    (w1 w2 : ℕ) (hw : w1 ≤ w2) :
    ((calculateWeightedSegments names)[i]?).map (fun wp => wp.weight)
        = some (max 0.1 (1 - (q.wins : ℚ) * 0.2))
      ∧ weightOf w2 ≤ weightOf w1
      ∧ (0.1 : ℚ) ≤ weightOf w1 := by
  refine ⟨?_, ?_, le_max_left _ _⟩
  · simp [calculateWeightedSegments, hq, weightOf]
  · apply max_le_max le_rfl
    have hc : (w1 : ℚ) ≤ (w2 : ℚ) := by exact_mod_cast hw
    nlinarith

/-- C4 witness: instantiated on the concrete roster with win counts 1 ≤ 3. -/
theorem weight_formula_monotone_floored_witness :
    ((calculateWeightedSegments rosterAB)[0]?).map (fun wp => wp.weight)
        = some (max 0.1 (1 - ((0 : ℕ) : ℚ) * 0.2))
      ∧ weightOf 3 ≤ weightOf 1
      ∧ (0.1 : ℚ) ≤ weightOf 1 :=
  weight_formula_monotone_floored rosterAB 0 ⟨"1", "A", 0⟩ rfl 1 3 (by norm_num)

/-- C5: the spin computation is deterministic — equal inputs yield equal
`(newCumulativeRotation, winningSegment)` pairs, and the full state
transition replays identically on an identical snapshot. -/
theorem spin_deterministic (p₁ p₂ s₁ s₂ : ℚ) (segs₁ segs₂ : List Segment)
    (st₁ st₂ : AppState) (r₁ r₂ : ℚ)
    (hp : p₁ = p₂) (hsegs : segs₁ = segs₂) (hs : s₁ = s₂)
    (hst : st₁ = st₂) (hr : r₁ = r₂) :
    resolveSpin p₁ segs₁ s₁ = resolveSpin p₂ segs₂ s₂ ∧
    spinWheel st₁ r₁ = spinWheel st₂ r₂ := by
  subst hp; subst hsegs; subst hs; subst hst; subst hr
  exact ⟨rfl, rfl⟩

/-- C5 witness: instantiated on the concrete roster and sample 0. -/
theorem spin_deterministic_witness :
    resolveSpin 0 (getSegmentAngles rosterAB) 0 = resolveSpin 0 (getSegmentAngles rosterAB) 0 ∧
    spinWheel stateAB 0 = spinWheel stateAB 0 :=
  spin_deterministic 0 0 0 0 (getSegmentAngles rosterAB) (getSegmentAngles rosterAB)
    stateAB stateAB 0 0 rfl rfl rfl rfl rfl

/-- C6: the new cumulative rotation is the previous one plus
`5*360 + randomSample`, hence it exceeds the previous one by at least 1800
and by strictly less than 2160; it is never reset. -/
theorem rotation_advances_five_to_six_turns (p s : ℚ) (segs : List Segment)
    (hs0 : 0 ≤ s) (hs1 : s < 360) :
    (resolveSpin p segs s).1 = p + (360 * 5 + s) ∧
    p + 5 * 360 ≤ (resolveSpin p segs s).1 ∧
    (resolveSpin p segs s).1 < p + 6 * 360 := by
  have h : (resolveSpin p segs s).1 = p + (360 * 5 + s) := rfl
  refine ⟨h, ?_, ?_⟩ <;> rw [h] <;> linarith

/-- C6 witness: instantiated at previous rotation 0 and sample 200. -/
theorem rotation_advances_five_to_six_turns_witness :
    (resolveSpin 0 (getSegmentAngles rosterAB) 200).1 = 0 + (360 * 5 + 200) ∧
    0 + 5 * 360 ≤ (resolveSpin 0 (getSegmentAngles rosterAB) 200).1 ∧
    (resolveSpin 0 (getSegmentAngles rosterAB) 200).1 < 0 + 6 * 360 :=
  rotation_advances_five_to_six_turns 0 200 (getSegmentAngles rosterAB)
    (by norm_num) (by norm_num)

/-- C7: a spin requested with zero entrants is refused as a no-op — the
state (roster, rotation, winner, spinning flag) is returned unchanged. -/
theorem emptyRoster_spin_noop (st : AppState) (s : ℚ) (h : st.names = []) :
    spinWheel st s = st := by
  simp [spinWheel, h]

/-- C7 witness: a spin on the empty-roster state is the identity. -/
theorem emptyRoster_spin_noop_witness :
    spinWheel ⟨[], false, none, 0⟩ 0 = ⟨[], false, none, 0⟩ :=
  emptyRoster_spin_noop ⟨[], false, none, 0⟩ 0 rfl

/-- C9: a spin requested while one is in flight (`isSpinning = true`) is
silently ignored — the button is disabled, so the click leaves the whole
state unchanged. -/
theorem concurrentSpin_click_noop (st : AppState) (s : ℚ) (h : st.isSpinning = true) :
    spinButtonClick st s = st := by
  simp [spinButtonClick, h]

/-- C9 witness: a click during a spin on the concrete roster is the identity. -/
theorem concurrentSpin_click_noop_witness :
    spinButtonClick ⟨rosterAB, true, none, 0⟩ 7 = ⟨rosterAB, true, none, 0⟩ :=
  concurrentSpin_click_noop ⟨rosterAB, true, none, 0⟩ 7 rfl

/-- C10: the commit step preserves the roster's length and order, leaves
every entrant whose id differs from the winner's unchanged, and changes the
winner's entry only by incrementing `wins` by exactly 1 (id and name kept). -/
theorem commit_increments_only_winner (names : List Person) (w : Person)
    (i : ℕ) (q : Person) (hq : names[i]? = some q) :
    (commitWin names w).length = names.length ∧
    (q.id ≠ w.id → (commitWin names w)[i]? = some q) ∧
    (q.id = w.id → (commitWin names w)[i]? = some ⟨q.id, q.name, q.wins + 1⟩) := by
  refine ⟨by simp [commitWin], ?_, ?_⟩
  · intro hne
    simp [commitWin, hq, hne]
  · intro heq
    simp [commitWin, hq, heq]

/-- C10 witness: committing winner A on the concrete roster increments A's
wins and leaves B untouched. -/
theorem commit_increments_only_winner_witness :
    (commitWin rosterAB ⟨"1", "A", 0⟩).length = rosterAB.length ∧
    ((⟨"2", "B", 0⟩ : Person).id ≠ (⟨"1", "A", 0⟩ : Person).id →
      (commitWin rosterAB ⟨"1", "A", 0⟩)[1]? = some ⟨"2", "B", 0⟩) ∧
    ((⟨"2", "B", 0⟩ : Person).id = (⟨"1", "A", 0⟩ : Person).id →
      (commitWin rosterAB ⟨"1", "A", 0⟩)[1]? = some ⟨"2", "B", 0 + 1⟩) :=
  commit_increments_only_winner rosterAB ⟨"1", "A", 0⟩ 1 ⟨"2", "B", 0⟩ rfl

/-- C2 (counterexample to the claim as stated): on the two-segment layout of
the concrete roster, the pointer value 360 matches no segment's
`[startAngle, endAngle)` interval, yet the selection returns the FIRST
segment (entrant A), not the last one (entrant B). -/
theorem noMatch_fallback_not_last :
    (∀ seg ∈ getSegmentAngles rosterAB,
        ¬ (seg.startAngle ≤ (360 : ℚ) ∧ (360 : ℚ) < seg.endAngle)) ∧
    selectWinner (getSegmentAngles rosterAB) 360
        = some ⟨⟨"1", "A", 0⟩, 1, 0, 180, 180⟩ ∧
    (getSegmentAngles rosterAB).getLast? = some ⟨⟨"2", "B", 0⟩, 1, 180, 360, 180⟩ ∧
    selectWinner (getSegmentAngles rosterAB) 360 ≠ (getSegmentAngles rosterAB).getLast? := by
  rw [rosterAB_segments]
  refine ⟨?_, ?_, rfl, ?_⟩
  · intro seg hseg
    rcases List.mem_cons.mp hseg with rfl | hseg'
    · norm_num
    · rcases List.mem_cons.mp hseg' with rfl | hnil
      · norm_num
      · simp at hnil
  · rw [selectWinner]
    rw [findSegment_eq_none 360 _ (by
      intro seg hseg
      rcases List.mem_cons.mp hseg with rfl | hseg'
      · norm_num
      · rcases List.mem_cons.mp hseg' with rfl | hnil
        · norm_num
        · simp at hnil)]
    rfl
  · rw [selectWinner]
    rw [findSegment_eq_none 360 _ (by
      intro seg hseg
      rcases List.mem_cons.mp hseg with rfl | hseg'
      · norm_num
      · rcases List.mem_cons.mp hseg' with rfl | hnil
        · norm_num
        · simp at hnil)]
    simp

/-- C2 (amended): when no segment's `[startAngle, endAngle)` interval
contains the pointer angle, the selection falls back to the first segment of
the sequence (`segments[0]`, the loop's initial value) rather than failing. -/
theorem noMatch_fallback_first (segs : List Segment) (angle : ℚ) (hne : segs ≠ [])
    (hnone : ∀ seg ∈ segs, ¬ (seg.startAngle ≤ angle ∧ angle < seg.endAngle)) :
    selectWinner segs angle = segs.head? := by
  cases segs with
  | nil => exact absurd rfl hne
  | cons s0 rest =>
    rw [selectWinner, findSegment_eq_none angle _ hnone]
    rfl

/-- C2 witness: at pointer value 360 on the concrete layout the fallback
returns the head segment. -/
theorem noMatch_fallback_first_witness :
    selectWinner (getSegmentAngles rosterAB) 360 = (getSegmentAngles rosterAB).head? := by
  apply noMatch_fallback_first
  · rw [rosterAB_segments]; simp
  · rw [rosterAB_segments]
    intro seg hseg
    rcases List.mem_cons.mp hseg with rfl | hseg'
    · norm_num
    · rcases List.mem_cons.mp hseg' with rfl | hnil
      · norm_num
      · simp at hnil

/-- C8: the duplicate check lowercases the raw input while the stored name is
the trimmed input, so the request `" alice"` passes the check against an
existing entrant `"alice"` and the roster ends up holding two names that are
equal case-insensitively — stored names do NOT remain case-insensitively
unique. -/
theorem addName_whitespace_duplicate :
    addName [⟨"1", "alice", 0⟩] " alice" "2"
        = [⟨"1", "alice", 0⟩, ⟨"2", "alice", 0⟩] ∧
    (addName [⟨"1", "alice", 0⟩] " alice" "2").map (fun q => jsToLower q.name)
        = ["alice", "alice"] := by
  constructor <;> decide

/-- C3: for a non-empty roster the layout is order-preserving (segment i
carries entrant i), starts at angle 0, is gap-free (each start equals the
previous end), gives each segment `weight/totalWeight * 360` degrees, sums
the segment angles to exactly 360, and ends the last segment at exactly 360. -/
theorem layout_partitions_circle (names : List Person) (hne : names ≠ []) :
    (getSegmentAngles names).map (fun s => s.person) = names ∧
    ((getSegmentAngles names).head?).map (fun s => s.startAngle) = some 0 ∧
    List.Chain' (fun u v => v.startAngle = u.endAngle) (getSegmentAngles names) ∧
    (∀ i : ℕ, ((getSegmentAngles names)[i]?).map (fun s => s.segmentAngle)
        = (names[i]?).map (fun q => weightOf q.wins / totalWeightOf names * 360)) ∧
    ((getSegmentAngles names).map (fun s => s.segmentAngle)).sum = 360 ∧
    ((getSegmentAngles names).getLast?).map (fun s => s.endAngle) = some 360 := by
  have hws : calculateWeightedSegments names ≠ [] := by
    cases names with
    | nil => exact absurd rfl hne
    | cons => simp [calculateWeightedSegments]
  have htpos := totalWeight_pos names hne
  refine ⟨?_, ?_, ?_, ?_, ?_, ?_⟩
  · rw [getSegmentAngles, segmentsFrom_map_person]
    rw [calculateWeightedSegments, List.map_map]
    exact List.map_id names
  · rw [getSegmentAngles, segmentsFrom_head?_start _ _ _ hws]
  · exact segmentsFrom_chain _ _ _
  · intro i
    rw [getSegmentAngles, segmentsFrom_getElem?_segmentAngle]
    simp only [calculateWeightedSegments, List.getElem?_map, Option.map_map]
    rfl
  · rw [getSegmentAngles, segmentsFrom_sum, ← totalWeight_eq,
      div_self (ne_of_gt htpos), one_mul]
  · rw [getSegmentAngles, segmentsFrom_getLast?_end _ _ _ hws, ← totalWeight_eq,
      div_self (ne_of_gt htpos)]
    norm_num

/-- C3 witness: on the concrete roster the layout preserves the entrants in
order, its segment angles sum to 360, and the last end angle is 360. -/
theorem layout_partitions_circle_witness :
    (getSegmentAngles rosterAB).map (fun s => s.person) = rosterAB ∧
    ((getSegmentAngles rosterAB).map (fun s => s.segmentAngle)).sum = 360 ∧
    ((getSegmentAngles rosterAB).getLast?).map (fun s => s.endAngle) = some 360 := by
  have h := layout_partitions_circle rosterAB (by decide)
  exact ⟨h.1, h.2.2.2.2.1, h.2.2.2.2.2⟩

/-- C1: for a non-empty roster, previous rotation `p ≥ 0` and sample
`s ∈ [0, 360)`, the spin's winner is exactly the first segment in order whose
half-open interval `[startAngle, endAngle)` contains
`pointerAngle p s = (360 - ((p + 5*360 + s) mod 360)) mod 360`. -/
theorem spin_winner_is_first_containing (names : List Person) (hne : names ≠ [])
    (p s : ℚ) (hp : 0 ≤ p) (hs0 : 0 ≤ s) (_hs1 : s < 360) :
    ∃ l₁ w l₂,
      getSegmentAngles names = l₁ ++ w :: l₂ ∧
      (∀ u ∈ l₁, ¬ (u.startAngle ≤ pointerAngle p s ∧ pointerAngle p s < u.endAngle)) ∧
      (w.startAngle ≤ pointerAngle p s ∧ pointerAngle p s < w.endAngle) ∧
      (resolveSpin p (getSegmentAngles names) s).2 = some w := by
  have hws : calculateWeightedSegments names ≠ [] := by
    cases names with
    | nil => exact absurd rfl hne
    | cons => simp [calculateWeightedSegments]
  have htpos := totalWeight_pos names hne
  have hangle := pointerAngle_mem p s hp hs0
  have hcover : pointerAngle p s <
      0 + ((calculateWeightedSegments names).map (fun wp => wp.weight)).sum
            / totalWeightOf names * 360 := by
    rw [← totalWeight_eq, div_self (ne_of_gt htpos)]
    rw [one_mul, zero_add]
    exact hangle.2
  have hgs : getSegmentAngles names
      = segmentsFrom (totalWeightOf names) 0 (calculateWeightedSegments names) := rfl
  have hsome : (findSegment (pointerAngle p s) (getSegmentAngles names)).isSome = true := by
    rw [hgs]
    exact findSegment_isSome_segmentsFrom (totalWeightOf names) (pointerAngle p s)
      (calculateWeightedSegments names) 0 hws hangle.1 hcover
  obtain ⟨w, hw⟩ := Option.isSome_iff_exists.mp hsome
  obtain ⟨l₁, l₂, heq, hno, hcont⟩ := findSegment_decomp _ _ _ hw
  refine ⟨l₁, w, l₂, heq, hno, hcont, ?_⟩
  rw [resolveSpin_snd]
  exact selectWinner_eq_of_findSegment _ _ _ hw

/-- C1 witness: instantiated on the concrete roster with previous rotation 0
and sample 200 (the spec's own scenario: pointer angle 160, winner A). -/
theorem spin_winner_is_first_containing_witness :
    ∃ l₁ w l₂,
      getSegmentAngles rosterAB = l₁ ++ w :: l₂ ∧
      (∀ u ∈ l₁, ¬ (u.startAngle ≤ pointerAngle 0 200 ∧ pointerAngle 0 200 < u.endAngle)) ∧
      (w.startAngle ≤ pointerAngle 0 200 ∧ pointerAngle 0 200 < w.endAngle) ∧
      (resolveSpin 0 (getSegmentAngles rosterAB) 200).2 = some w :=
  spin_winner_is_first_containing rosterAB (by decide) 0 200 le_rfl (by norm_num) (by norm_num)
